import Mathlib

/-!
# Verification of the C++ template snippets

Shallow embedding of three teaching snippets:

* `basics/stack3.hpp`      : `Stack<T, Cont>`, a stack over a swappable sequence container;
* `stacknontype.hpp`       : `Stack<T, MaxArraySize>`, a stack over a fixed-size buffer;
* `basics/foldtraverse.cpp`: `traverse`, a fold over pointer-to-member selectors.

Conventions of the embedding.

* `assert` is modelled as active (debug build): a failed assertion stops the
  run with `Fault.assertion`.
* Undefined behaviour (out-of-range `operator[]`, `back()`/`pop_back()` on an
  empty container, dereferencing a null pointer) stops the run with
  `Fault.undefined`.
* `std::size_t` is a natural number reduced modulo `2 ^ w`, `w` being the width
  of `size_t`.
-/

/-- Ways a run can stop before an operation completes. -/
inductive Fault where
  /-- An `assert(...)` evaluated to false. -/
  | assertion
  /-- The operation has undefined behaviour. -/
  | undefined
deriving DecidableEq, Repr

/-- The operations a client can call on either stack. -/
inductive Op (T : Type) where
  | push (elem : T)
  | pop
  | top
  | empty
deriving DecidableEq, Repr

/-- What a completed operation returns to the client. -/
inductive Obs (T : Type) where
  /-- A `void` member function returned. -/
  | done
  /-- The element returned by `top()`. -/
  | value (v : T)
  /-- The boolean returned by `empty()`. -/
  | flag (b : Bool)
deriving DecidableEq, Repr

/-! ## The standard sequence containers used by `stack3.hpp` -/

/-- The part of the standard sequence-container interface that
`Stack<T, Cont>` uses (`empty`, `push_back`, `pop_back`, `back`, default
construction), together with the sequence of elements a container value
stands for.  `pop_back` and `back` are undefined on an empty container, which
is rendered by `none`. -/
class SeqContainer (Cont : Type) (T : outParam Type) where
  /-- Default construction. -/
  init : Cont
  /-- The sequence held, front to back. -/
  toList : Cont → List T
  empty : Cont → Bool
  push_back : Cont → T → Cont
  pop_back : Cont → Option Cont
  back : Cont → Option T
  toList_init : toList init = []
  empty_eq : ∀ c, empty c = (toList c).isEmpty
  toList_push_back : ∀ c x, toList (push_back c x) = toList c ++ [x]
  pop_back_eq : ∀ c, (pop_back c).map toList =
    if (toList c).isEmpty then none else some (toList c).dropLast
  back_eq : ∀ c, back c = (toList c).getLast?

/-- Model of `std::vector<T>`: one contiguous array. -/
structure StdVector (T : Type) where
  data : Array T
deriving DecidableEq, Repr

namespace StdVector

variable {T : Type}

def init : StdVector T := ⟨#[]⟩

def toList (v : StdVector T) : List T := v.data.toList

def empty (v : StdVector T) : Bool := v.data.size == 0

def push_back (v : StdVector T) (x : T) : StdVector T := ⟨v.data.push x⟩

def pop_back (v : StdVector T) : Option (StdVector T) :=
  if v.data.size = 0 then none else some ⟨v.data.pop⟩

def back (v : StdVector T) : Option T := v.data[v.data.size - 1]?

end StdVector

/-- Model of `std::deque<T>`: a double-ended queue kept as two runs, the
front run in order and the rear run reversed (its head is the back element). -/
structure StdDeque (T : Type) where
  front : List T
  rear : List T
deriving DecidableEq, Repr

namespace StdDeque

variable {T : Type}

def init : StdDeque T := ⟨[], []⟩

def toList (d : StdDeque T) : List T := d.front ++ d.rear.reverse

def empty (d : StdDeque T) : Bool := d.front.isEmpty && d.rear.isEmpty

def push_back (d : StdDeque T) (x : T) : StdDeque T := { d with rear := x :: d.rear }

def push_front (d : StdDeque T) (x : T) : StdDeque T := { d with front := x :: d.front }

def pop_back (d : StdDeque T) : Option (StdDeque T) :=
  match d.rear with
  | _ :: r => some { d with rear := r }
  | [] => if d.front.isEmpty then none else some { d with front := d.front.dropLast }

def back (d : StdDeque T) : Option T :=
  match d.rear with
  | x :: _ => some x
  | [] => d.front.getLast?

end StdDeque

instance instSeqContainerStdVector (T : Type) : SeqContainer (StdVector T) T where
  init := StdVector.init
  toList := StdVector.toList
  empty := StdVector.empty
  push_back := StdVector.push_back
  pop_back := StdVector.pop_back
  back := StdVector.back
  toList_init := rfl
  empty_eq := by
    rintro ⟨⟨l⟩⟩
    cases l <;> rfl
  toList_push_back := by
    rintro ⟨a⟩ x
    simp [StdVector.toList, StdVector.push_back]
  pop_back_eq := by
    rintro ⟨⟨l⟩⟩
    cases l <;> simp [StdVector.toList, StdVector.pop_back]
  back_eq := by
    rintro ⟨⟨l⟩⟩
    simp [StdVector.toList, StdVector.back, List.getLast?_eq_getElem?]

instance instSeqContainerStdDeque (T : Type) : SeqContainer (StdDeque T) T where
  init := StdDeque.init
  toList := StdDeque.toList
  empty := StdDeque.empty
  push_back := StdDeque.push_back
  pop_back := StdDeque.pop_back
  back := StdDeque.back
  toList_init := rfl
  empty_eq := by
    rintro ⟨f, r⟩
    cases f <;> cases r <;> simp [StdDeque.toList, StdDeque.empty]
  toList_push_back := by
    rintro ⟨f, r⟩ x
    simp [StdDeque.toList, StdDeque.push_back]
  pop_back_eq := by
    rintro ⟨f, r⟩
    cases r with
    | nil =>
      cases f <;> simp [StdDeque.toList, StdDeque.pop_back]
    | cons x r =>
      simp [StdDeque.toList, StdDeque.pop_back, List.dropLast_append_of_ne_nil,
        ← List.append_assoc]
  back_eq := by
    rintro ⟨f, r⟩
    cases r with
    | nil => simp [StdDeque.toList, StdDeque.back]
    | cons x r => simp [StdDeque.toList, StdDeque.back, ← List.append_assoc]

/-! ## `basics/stack3.hpp` : `Stack<T, Cont>` -/

namespace Stack3

/-- The class `Stack<T, Cont>`: its only data member is `Cont elems`. -/
structure Stack (T : Type) (Cont : Type) where
  elems : Cont

namespace Stack

variable {T Cont : Type} [SeqContainer Cont T]

/-- The implicit default constructor: `elems` is default-constructed. -/
def new : Stack T Cont := ⟨SeqContainer.init⟩

/-- Member `empty()`: `return elems.empty();` -/
def empty (s : Stack T Cont) : Bool := SeqContainer.empty s.elems

/-- Member `push(elem)`: `elems.push_back(elem);` -/
def push (s : Stack T Cont) (elem : T) : Stack T Cont :=
  ⟨SeqContainer.push_back s.elems elem⟩

/-- Member `pop()`: `assert(!elems.empty()); elems.pop_back();` -/
def pop (s : Stack T Cont) : Except Fault (Stack T Cont) :=
  if SeqContainer.empty s.elems then .error Fault.assertion
  else
    match SeqContainer.pop_back s.elems with
    | some c => .ok ⟨c⟩
    | none => .error Fault.undefined

/-- Member `top()`: `assert(!elems.empty()); return elems.back();` -/
def top (s : Stack T Cont) : Except Fault T :=
  if SeqContainer.empty s.elems then .error Fault.assertion
  else
    match SeqContainer.back s.elems with
    | some x => .ok x
    | none => .error Fault.undefined

/-- The sequence of elements held by the stack, bottom first. -/
def seq (s : Stack T Cont) : List T := SeqContainer.toList s.elems

/-- One client call: the value it returns and the stack afterwards. -/
def step (op : Op T) (s : Stack T Cont) : Except Fault (Obs T × Stack T Cont) :=
  match op with
  | Op.push elem => .ok (Obs.done, s.push elem)
  | Op.pop => (s.pop).map (fun s' => (Obs.done, s'))
  | Op.top => (s.top).map (fun v => (Obs.value v, s))
  | Op.empty => .ok (Obs.flag s.empty, s)

/-- The outcome of each call of a client program, in order; the program stops
at the first call that does not complete. -/
def run : List (Op T) → Stack T Cont → List (Except Fault (Obs T))
  | [], _ => []
  | op :: ops, s =>
    match step op s with
    | .ok (o, s') => .ok o :: run ops s'
    | .error f => [.error f]

/-- The stack left by a client program, if every call completes. -/
def exec : List (Op T) → Stack T Cont → Except Fault (Stack T Cont)
  | [], s => .ok s
  | op :: ops, s =>
    match step op s with
    | .ok (_, s') => exec ops s'
    | .error f => .error f

end Stack

end Stack3

/-! ## `stacknontype.hpp` : `Stack<T, MaxArraySize>` -/

namespace StackNonType

/-- Member `std::array<T, N>::empty()`: an array is empty exactly when its
static extent `N` is zero, whatever it holds. -/
def arrayEmpty (N : Nat) : Bool := N == 0

/-- The class `Stack<T, MaxArraySize>` for a `size_t` of width `w`: the
buffer `std::array<T, MaxArraySize> elems` and the counter
`std::size_t numElems`. -/
structure Stack (w : Nat) (T : Type) (MaxArraySize : Nat) where
  elems : Fin MaxArraySize → T
  numElems : Nat

namespace Stack

variable {w : Nat} {T : Type} {MaxArraySize : Nat}

/-- The constructor `Stack() : numElems(0) {}`.  The buffer is
default-initialised; `buf` stands for whatever it holds then. -/
def new (buf : Fin MaxArraySize → T) : Stack w T MaxArraySize :=
  { elems := buf, numElems := 0 }

/-- Member `empty()`: `return numElems == 0;` -/
def empty (s : Stack w T MaxArraySize) : Bool := s.numElems == 0

/-- Member `size()`: `return numElems;` -/
def size (s : Stack w T MaxArraySize) : Nat := s.numElems

/-- Member `push(elem)`:
`assert(numElems < MaxArraySize); elems[numElems] = elem; ++numElems;` -/
def push (s : Stack w T MaxArraySize) (elem : T) : Except Fault (Stack w T MaxArraySize) :=
  if h : s.numElems < MaxArraySize then
    .ok { elems := Function.update s.elems ⟨s.numElems, h⟩ elem
          numElems := (s.numElems + 1) % 2 ^ w }
  else .error Fault.assertion

/-- Member `pop()`: `assert(!elems.empty()); --numElems;` -/
def pop (s : Stack w T MaxArraySize) : Except Fault (Stack w T MaxArraySize) :=
  if arrayEmpty MaxArraySize then .error Fault.assertion
  else .ok { s with numElems := (s.numElems + 2 ^ w - 1) % 2 ^ w }

/-- Member `top()`: `assert(!elems.empty()); return elems[numElems - 1];`
The member is not `const`, so the stack afterwards is returned as well.  The
index `numElems - 1` is computed in `size_t`; `operator[]` outside the extent
is undefined. -/
def top (s : Stack w T MaxArraySize) : Except Fault (T × Stack w T MaxArraySize) :=
  if arrayEmpty MaxArraySize then .error Fault.assertion
  else
    if h : (s.numElems + 2 ^ w - 1) % 2 ^ w < MaxArraySize then
      .ok (s.elems ⟨(s.numElems + 2 ^ w - 1) % 2 ^ w, h⟩, s)
    else .error Fault.undefined

/-- The data-model invariant of the bounded stack:
`0 ≤ numElems ≤ MaxArraySize`. -/
def countInv (s : Stack w T MaxArraySize) : Prop := 0 ≤ s.numElems ∧ s.numElems ≤ MaxArraySize

instance instDecidableCountInv (s : Stack w T MaxArraySize) : Decidable s.countInv := by
  unfold countInv
  exact inferInstance

/-- One client call: the value it returns and the stack afterwards. -/
def step (op : Op T) (s : Stack w T MaxArraySize) :
    Except Fault (Obs T × Stack w T MaxArraySize) :=
  match op with
  | Op.push elem => (s.push elem).map (fun s' => (Obs.done, s'))
  | Op.pop => (s.pop).map (fun s' => (Obs.done, s'))
  | Op.top => (s.top).map (fun r => (Obs.value r.1, r.2))
  | Op.empty => .ok (Obs.flag s.empty, s)

/-- The outcome of each call of a client program, in order; the program stops
at the first call that does not complete. -/
def run : List (Op T) → Stack w T MaxArraySize → List (Except Fault (Obs T))
  | [], _ => []
  | op :: ops, s =>
    match step op s with
    | .ok (o, s') => .ok o :: run ops s'
    | .error f => [.error f]

/-- The stack left by a client program, if every call completes. -/
def exec : List (Op T) → Stack w T MaxArraySize → Except Fault (Stack w T MaxArraySize)
  | [], s => .ok s
  | op :: ops, s =>
    match step op s with
    | .ok (_, s') => exec ops s'
    | .error f => .error f

/-- The bounded stack `b` holds exactly the sequence `l`, bottom first: the
count is the length of `l`, which fits the buffer, and the occupied slots hold
the elements of `l` in order. -/
def Holds (b : Stack w T MaxArraySize) (l : List T) : Prop :=
  b.numElems = l.length ∧ l.length ≤ MaxArraySize
    ∧ ∀ (i : Nat) (hi : i < l.length) (hC : i < MaxArraySize), b.elems ⟨i, hC⟩ = l[i]

/-- The documented precondition of a call: `push` only when
`size() < MaxArraySize`, `pop` and `top` only when `size() > 0`. -/
def precond (op : Op T) (s : Stack w T MaxArraySize) : Bool :=
  match op with
  | Op.push _ => decide (s.size < MaxArraySize)
  | Op.pop => decide (0 < s.size)
  | Op.top => decide (0 < s.size)
  | Op.empty => true

/-- The documented preconditions of the two calls that change the count:
`push` only when `size() < MaxArraySize`, `pop` only when `size() > 0`. -/
def sizePrecond (op : Op T) (s : Stack w T MaxArraySize) : Bool :=
  match op with
  | Op.push _ => decide (s.size < MaxArraySize)
  | Op.pop => decide (0 < s.size)
  | Op.top => true
  | Op.empty => true

/-- Every call that a client program makes, run from `s`, is made in a state
that meets `guard`; the program makes no further call once one does not
complete. -/
def respects (guard : Op T → Stack w T MaxArraySize → Bool) :
    List (Op T) → Stack w T MaxArraySize → Bool
  | [], _ => true
  | op :: ops, s =>
    guard op s &&
      match step op s with
      | .ok (_, s') => respects guard ops s'
      | .error _ => true

end Stack

end StackNonType

/-! ## `basics/foldtraverse.cpp` : `Node` and `traverse` -/

namespace FoldTraverse

/-- The struct `Node`: `int value; Node* left; Node* right;`.  A `Node*` is
either null (`none`) or points to a node (`some`). -/
inductive Node : Type where
  | mk (value : Int) (left : Option Node) (right : Option Node)

namespace Node

/-- The constructor `Node(int i) : value(i), left(nullptr), right(nullptr)`. -/
def new (i : Int) : Node := mk i none none

def value : Node → Int
  | mk v _ _ => v

def left : Node → Option Node
  | mk _ l _ => l

def right : Node → Option Node
  | mk _ _ r => r

/-- The assignment `n.left = p`. -/
def setLeft (p : Option Node) : Node → Node
  | mk v _ r => mk v p r

/-- The assignment `n.right = p`. -/
def setRight (p : Option Node) : Node → Node
  | mk v l _ => mk v l p

end Node

/-- A value of type `Node* Node::*`: a pointer to one of the two link members. -/
inductive NodeMember where
  | left
  | right
deriving DecidableEq, Repr

/-- The member a pointer-to-member designates, read in a node. -/
def NodeMember.read : NodeMember → Node → Option Node
  | NodeMember.left, n => n.left
  | NodeMember.right, n => n.right

/-- The global `auto left = &Node::left;` -/
def left : NodeMember := NodeMember.left

/-- The global `auto right = &Node::right;` -/
def right : NodeMember := NodeMember.right

/-- The built-in `np ->* path` on a `Node*`: undefined when `np` is null. -/
def arrowStar (np : Option Node) (path : NodeMember) : Except Fault (Option Node) :=
  match np with
  | none => .error Fault.undefined
  | some n => .ok (path.read n)

/-- The function `traverse(np, paths...)`, whose body is the binary left fold
`(np ->* ... ->* paths)`: with an empty pack it is `np`, otherwise
`np ->* path1` is evaluated first and the rest of the pack is applied to it. -/
def traverse : Option Node → List NodeMember → Except Fault (Option Node)
  | np, [] => .ok np
  | np, path :: paths =>
    match arrowStar np path with
    | .ok q => traverse q paths
    | .error f => .error f

/-- The tree built by `main`: `root = new Node{0}`,
`root->left = new Node{1}`, `root->left->right = new Node{2}`. -/
def mainRoot : Option Node :=
  let root0 := Node.new 0
  let root1 := root0.setLeft (some (Node.new 1))
  let root2 := root1.setLeft (root1.left.map (Node.setRight (some (Node.new 2))))
  some root2

/-- The link read through a pointer-to-member, null when the pointer is null. -/
def link (p : Option Node) (path : NodeMember) : Option Node := p.bind path.read

/-- The specification of the traversal: the left fold
`((np ->* p1) ->* p2) ... ->* pn` over the selectors. -/
def leftFold (np : Option Node) (paths : List NodeMember) : Option Node :=
  paths.foldl link np

end FoldTraverse

/-! ## Client programs used in the statements -/

/-- Number of `push` calls in a program. -/
def pushes {T : Type} : List (Op T) → Nat
  | [] => 0
  | Op.push _ :: ops => pushes ops + 1
  | _ :: ops => pushes ops

/-- Number of `pop` calls in a program. -/
def pops {T : Type} : List (Op T) → Nat
  | [] => 0
  | Op.pop :: ops => pops ops + 1
  | _ :: ops => pops ops

/-- The program `push(v1); ...; push(vn)`. -/
def pushProgram {T : Type} (vs : List T) : List (Op T) := vs.map Op.push

/-- The program made of `n` rounds of `top(); pop();`. -/
def drainProgram {T : Type} : Nat → List (Op T)
  | 0 => []
  | n + 1 => Op.top :: Op.pop :: drainProgram n

/-- A program, run with `n` elements stored, keeps within the documented
preconditions of a stack of capacity `C`: it never stores more than `C`
elements and never calls `pop` or `top` with nothing stored. -/
def withinCapacity {T : Type} (C : Nat) : Nat → List (Op T) → Bool
  | _, [] => true
  | n, Op.push _ :: ops => decide (n + 1 ≤ C) && withinCapacity C (n + 1) ops
  | n, Op.pop :: ops => decide (0 < n) && withinCapacity C (n - 1) ops
  | n, Op.top :: ops => decide (0 < n) && withinCapacity C n ops
  | n, Op.empty :: ops => withinCapacity C n ops

/-! ## Facts about `Stack<T, Cont>` -/

namespace Stack3

namespace Stack

variable {T Cont : Type} [SeqContainer Cont T]

theorem seq_new : (new : Stack T Cont).seq = [] :=
  SeqContainer.toList_init

theorem empty_eq_isEmpty (s : Stack T Cont) : s.empty = s.seq.isEmpty :=
  SeqContainer.empty_eq s.elems

theorem seq_push (s : Stack T Cont) (v : T) : (s.push v).seq = s.seq ++ [v] :=
  SeqContainer.toList_push_back s.elems v

theorem pop_of_seq_nil (s : Stack T Cont) (h : s.seq = []) :
    s.pop = .error Fault.assertion := by
  have he : SeqContainer.empty s.elems = true := by
    rw [SeqContainer.empty_eq]
    unfold seq at h
    rw [h]
    rfl
  simp [pop, he]

theorem top_of_seq_nil (s : Stack T Cont) (h : s.seq = []) :
    s.top = .error Fault.assertion := by
  have he : SeqContainer.empty s.elems = true := by
    rw [SeqContainer.empty_eq]
    unfold seq at h
    rw [h]
    rfl
  simp [top, he]

theorem pop_of_seq_snoc (s : Stack T Cont) (l : List T) (v : T) (h : s.seq = l ++ [v]) :
    ∃ s' : Stack T Cont, s.pop = .ok s' ∧ s'.seq = l := by
  unfold seq at h
  have he : SeqContainer.empty s.elems = false := by
    rw [SeqContainer.empty_eq, h]
    simp
  have hp := SeqContainer.pop_back_eq s.elems
  rw [h] at hp
  have hne : (l ++ [v]).isEmpty = false := by simp
  rw [hne] at hp
  simp only [Bool.false_eq_true, if_false, List.dropLast_concat] at hp
  cases hc : SeqContainer.pop_back s.elems with
  | none => rw [hc] at hp; simp at hp
  | some c =>
    rw [hc] at hp
    refine ⟨⟨c⟩, ?_, ?_⟩
    · simp [pop, he, hc]
    · simpa [seq] using hp

theorem top_of_seq_snoc (s : Stack T Cont) (l : List T) (v : T) (h : s.seq = l ++ [v]) :
    s.top = .ok v := by
  unfold seq at h
  have he : SeqContainer.empty s.elems = false := by
    rw [SeqContainer.empty_eq, h]
    simp
  have hb := SeqContainer.back_eq s.elems
  rw [h] at hb
  simp only [List.getLast?_append, List.getLast?_singleton] at hb
  simp [top, he, hb]

theorem seq_foldl_push (vs : List T) (s : Stack T Cont) :
    (vs.foldl push s).seq = s.seq ++ vs := by
  induction vs generalizing s with
  | nil => simp
  | cons v vs ih => simp [ih, seq_push]

theorem run_pushProgram_append (vs : List T) (rest : List (Op T)) (s : Stack T Cont) :
    run (pushProgram vs ++ rest) s
      = vs.map (fun _ => Except.ok Obs.done) ++ run rest (vs.foldl push s) := by
  induction vs generalizing s with
  | nil => simp [pushProgram]
  | cons v vs ih =>
    have := ih (s.push v)
    simp only [pushProgram] at this
    simp [pushProgram, run, step, this]

theorem run_drainProgram (l : List T) (s : Stack T Cont) (h : s.seq = l) :
    run (drainProgram l.length) s
      = l.reverse.flatMap (fun v => [Except.ok (Obs.value v), Except.ok Obs.done]) := by
  induction l using List.reverseRecOn generalizing s with
  | nil => simp [drainProgram, run]
  | append_singleton l v ih =>
    obtain ⟨s', hpop, hseq⟩ := pop_of_seq_snoc s l v h
    have htop := top_of_seq_snoc s l v h
    simp [drainProgram, run, step, htop, hpop, Except.map, ih s' hseq]

end Stack

/-- C1: on a freshly constructed `Stack<T, Cont>`, the program
`push(v1); ...; push(vn)` followed by `n` rounds of `top(); pop();` completes
every call (no assertion fails), and the values returned by the `top()` calls
are `vn, ..., v1`, the reverse of the push order. -/
theorem stack3_lifo {T Cont : Type} [SeqContainer Cont T] (vs : List T) :
    Stack.run (pushProgram vs ++ drainProgram vs.length) (Stack.new : Stack T Cont)
      = vs.map (fun _ => Except.ok Obs.done)
        ++ vs.reverse.flatMap (fun v => [Except.ok (Obs.value v), Except.ok Obs.done]) := by
  rw [Stack.run_pushProgram_append]
  congr 1
  apply Stack.run_drainProgram
  rw [Stack.seq_foldl_push, Stack.seq_new]
  rfl

end Stack3

/-! ## Facts about `Stack<T, MaxArraySize>` -/

namespace StackNonType

namespace Stack

variable {w : Nat} {T : Type} {MaxArraySize : Nat}

theorem push_of_lt (s : Stack w T MaxArraySize) (elem : T) (h : s.numElems < MaxArraySize)
    (hC : MaxArraySize < 2 ^ w) :
    s.push elem = .ok { elems := Function.update s.elems ⟨s.numElems, h⟩ elem
                        numElems := s.numElems + 1 } := by
  have hmod : (s.numElems + 1) % 2 ^ w = s.numElems + 1 := Nat.mod_eq_of_lt (by omega)
  simp [push, h, hmod]

theorem push_of_not_lt (s : Stack w T MaxArraySize) (elem : T) (h : ¬ s.numElems < MaxArraySize) :
    s.push elem = .error Fault.assertion := by
  simp [push, h]

theorem run_append_of_exec (ops rest : List (Op T)) (s s' : Stack w T MaxArraySize)
    (h : exec ops s = .ok s') : run (ops ++ rest) s = run ops s ++ run rest s' := by
  induction ops generalizing s with
  | nil =>
    simp only [exec, Except.ok.injEq] at h
    simp [run, h]
  | cons op ops ih =>
    cases hs : step op s with
    | error f => simp [exec, hs] at h
    | ok r =>
      obtain ⟨o, s1⟩ := r
      simp only [exec, hs] at h
      simp [run, hs, ih s1 h]

theorem exec_pushProgram (hC : MaxArraySize < 2 ^ w) (vs : List T) (s : Stack w T MaxArraySize)
    (h : s.numElems + vs.length ≤ MaxArraySize) :
    ∃ s' : Stack w T MaxArraySize, exec (pushProgram vs) s = .ok s'
      ∧ s'.numElems = s.numElems + vs.length
      ∧ run (pushProgram vs) s = vs.map (fun _ => Except.ok Obs.done) := by
  induction vs generalizing s with
  | nil => exact ⟨s, rfl, rfl, rfl⟩
  | cons v vs ih =>
    simp only [List.length_cons] at h
    have hlt : s.numElems < MaxArraySize := by omega
    obtain ⟨s', he, hn, hr⟩ := ih
      { elems := Function.update s.elems ⟨s.numElems, hlt⟩ v, numElems := s.numElems + 1 }
      (by simp only; omega)
    simp only [pushProgram] at he hr
    refine ⟨s', ?_, ?_, ?_⟩
    · simp [pushProgram, exec, step, push_of_lt s v hlt hC, Except.map, he]
    · simp only [hn, List.length_cons]; omega
    · simp [pushProgram, run, step, push_of_lt s v hlt hC, Except.map, hr]

end Stack

/-- C2 (evaluation of the code): on a freshly constructed
`Stack<int, 1>` with a 64-bit `size_t`, `pop()` passes its assertion and
completes, leaving `numElems = 2^64 - 1`, and `top()` passes its assertion too
and goes on to read `elems[2^64 - 1]`, outside the buffer; neither call stops
at the precondition assertion. -/
theorem bounded_pop_top_on_fresh (buf : Fin 1 → Int) :
    (Stack.new buf : Stack 64 Int 1).pop
        = .ok { elems := buf, numElems := 18446744073709551615 }
      ∧ (Stack.new buf : Stack 64 Int 1).top = .error Fault.undefined
      ∧ (Stack.new buf : Stack 64 Int 1).pop ≠ .error Fault.assertion
      ∧ (Stack.new buf : Stack 64 Int 1).top ≠ .error Fault.assertion := by
  refine ⟨?_, ?_, ?_, ?_⟩ <;> simp [Stack.new, Stack.pop, Stack.top, arrayEmpty]

/-- C3 (evaluation of the code): the freshly constructed `Stack<int, 1>`
(64-bit `size_t`) satisfies `0 ≤ numElems ≤ MaxArraySize`, `pop()` completes
on it without an assertion failure, and the stack it leaves has
`numElems = 2^64 - 1`, which breaks the invariant. -/
theorem bounded_pop_breaks_countInv (buf : Fin 1 → Int) :
    (Stack.new buf : Stack 64 Int 1).countInv
      ∧ ∃ s' : Stack 64 Int 1, (Stack.new buf : Stack 64 Int 1).pop = .ok s'
          ∧ s'.numElems = 18446744073709551615 ∧ ¬ s'.countInv := by
  refine ⟨by simp [Stack.new, Stack.countInv], ⟨buf, 18446744073709551615⟩, ?_, rfl, ?_⟩
  · simp [Stack.new, Stack.pop, arrayEmpty]
  · simp [Stack.countInv]

/-- C4: for every capacity `C` (a `size_t`, so `C < 2^w`) and every list of
`C` values, pushing them one by one onto a freshly constructed `Stack<T, C>`
completes every call and leaves `size() == C`; a further push, with any
value, fails the assertion `numElems < MaxArraySize`, so the run stops there
with no buffer write and no change of the count. -/
theorem bounded_capacity_limit {w : Nat} {T : Type} (C : Nat) (hC : C < 2 ^ w)
    (buf : Fin C → T) (vs : List T) (hlen : vs.length = C) (v : T) :
    ∃ s : Stack w T C,
      Stack.exec (pushProgram vs) (Stack.new buf) = .ok s
      ∧ Stack.run (pushProgram vs) (Stack.new buf : Stack w T C)
          = vs.map (fun _ => Except.ok Obs.done)
      ∧ s.size = C
      ∧ s.push v = .error Fault.assertion
      ∧ Stack.run (pushProgram vs ++ [Op.push v]) (Stack.new buf : Stack w T C)
          = vs.map (fun _ => Except.ok Obs.done) ++ [.error Fault.assertion] := by
  obtain ⟨s, he, hn, hr⟩ := Stack.exec_pushProgram hC vs (Stack.new buf : Stack w T C)
    (by simp [Stack.new, hlen])
  have hsz : s.numElems = C := by simpa [Stack.new, hlen] using hn
  have hpush : s.push v = .error Fault.assertion :=
    Stack.push_of_not_lt s v (by omega)
  refine ⟨s, he, hr, hsz, hpush, ?_⟩
  rw [Stack.run_append_of_exec _ _ _ s he, hr]
  simp [Stack.run, Stack.step, hpush, Except.map]

/-- Witness for `bounded_capacity_limit`: capacity 2 with a 64-bit `size_t`,
pushing 10 and 20, then attempting to push 30. -/
theorem bounded_capacity_limit_witness :
    (2 < 2 ^ 64 ∧ [(10 : Int), 20].length = 2) ∧
    ∃ s : Stack 64 Int 2,
      Stack.exec (pushProgram [10, 20]) (Stack.new (fun _ => 0)) = .ok s
      ∧ Stack.run (pushProgram [10, 20]) (Stack.new (fun _ => 0) : Stack 64 Int 2)
          = [(10 : Int), 20].map (fun _ => Except.ok Obs.done)
      ∧ s.size = 2
      ∧ s.push 30 = .error Fault.assertion
      ∧ Stack.run (pushProgram [10, 20] ++ [Op.push 30])
            (Stack.new (fun _ => 0) : Stack 64 Int 2)
          = [(10 : Int), 20].map (fun _ => Except.ok Obs.done) ++ [.error Fault.assertion] :=
  ⟨⟨by norm_num, rfl⟩, bounded_capacity_limit 2 (by norm_num) (fun _ => 0) [10, 20] rfl 30⟩

end StackNonType

/-! ## Pop/top on empty, emptiness, round trip and backing containers of `Stack<T, Cont>` -/

namespace Stack3

namespace Stack

variable {T Cont : Type} [SeqContainer Cont T]

theorem empty_eq_true_iff (s : Stack T Cont) : s.empty = true ↔ s.seq = [] := by
  rw [empty_eq_isEmpty]
  exact List.isEmpty_iff

theorem pop_top_of_seq_ne_nil (s : Stack T Cont) (h : s.seq ≠ []) :
    (∃ s' : Stack T Cont, s.pop = .ok s' ∧ s'.seq = s.seq.dropLast)
      ∧ ∃ v : T, s.top = .ok v ∧ s.seq.getLast? = some v := by
  obtain ⟨l, v, hl⟩ : ∃ l v, s.seq = l ++ [v] :=
    ⟨s.seq.dropLast, s.seq.getLast h, (List.dropLast_append_getLast h).symm⟩
  obtain ⟨s', hp, hs⟩ := pop_of_seq_snoc s l v hl
  refine ⟨⟨s', hp, ?_⟩, v, top_of_seq_snoc s l v hl, ?_⟩
  · rw [hs, hl, List.dropLast_concat]
  · rw [hl]; simp

theorem exec_length (ops : List (Op T)) (s s' : Stack T Cont) (h : exec ops s = .ok s') :
    s'.seq.length + pops ops = s.seq.length + pushes ops := by
  induction ops generalizing s with
  | nil =>
    simp only [exec, Except.ok.injEq] at h
    simp [h, pops, pushes]
  | cons op ops ih =>
    cases op with
    | push v =>
      have := ih (s.push v) (by simpa [exec, step] using h)
      simp only [seq_push, List.length_append, List.length_singleton] at this
      simp only [pops, pushes]
      omega
    | pop =>
      by_cases hs : s.seq = []
      · simp [exec, step, pop_of_seq_nil s hs, Except.map] at h
      · obtain ⟨⟨s1, hp, hs1⟩, _⟩ := pop_top_of_seq_ne_nil s hs
        have := ih s1 (by simpa [exec, step, hp, Except.map] using h)
        have hlen : 0 < s.seq.length := List.length_pos.mpr hs
        rw [hs1, List.length_dropLast] at this
        simp only [pops, pushes]
        omega
    | top =>
      cases ht : s.top with
      | error f => simp [exec, step, ht, Except.map] at h
      | ok v =>
        have := ih s (by simpa [exec, step, ht, Except.map] using h)
        simpa [pops, pushes] using this
    | empty =>
      have := ih s (by simpa [exec, step] using h)
      simpa [pops, pushes] using this

theorem step_congr {Cont' : Type} [SeqContainer Cont' T] (op : Op T)
    (s : Stack T Cont) (t : Stack T Cont') (h : s.seq = t.seq) :
    (∃ f, step op s = .error f ∧ step op t = .error f)
      ∨ ∃ o s' t', step op s = .ok (o, s') ∧ step op t = .ok (o, t') ∧ s'.seq = t'.seq := by
  cases op with
  | push v =>
    exact Or.inr ⟨Obs.done, s.push v, t.push v, rfl, rfl, by rw [seq_push, seq_push, h]⟩
  | pop =>
    by_cases hs : s.seq = []
    · exact Or.inl ⟨Fault.assertion, by simp [step, pop_of_seq_nil s hs, Except.map],
        by simp [step, pop_of_seq_nil t (h ▸ hs), Except.map]⟩
    · obtain ⟨⟨s1, hp, hs1⟩, _⟩ := pop_top_of_seq_ne_nil s hs
      obtain ⟨⟨t1, hq, ht1⟩, _⟩ := pop_top_of_seq_ne_nil t (h ▸ hs)
      exact Or.inr ⟨Obs.done, s1, t1, by simp [step, hp, Except.map],
        by simp [step, hq, Except.map], by rw [hs1, ht1, h]⟩
  | top =>
    by_cases hs : s.seq = []
    · exact Or.inl ⟨Fault.assertion, by simp [step, top_of_seq_nil s hs, Except.map],
        by simp [step, top_of_seq_nil t (h ▸ hs), Except.map]⟩
    · obtain ⟨_, v, hp, hv⟩ := pop_top_of_seq_ne_nil s hs
      obtain ⟨_, u, hq, hu⟩ := pop_top_of_seq_ne_nil t (h ▸ hs)
      have huv : v = u := by
        rw [h, hu] at hv
        exact (Option.some.inj hv).symm
      subst huv
      exact Or.inr ⟨Obs.value v, s, t, by simp [step, hp, Except.map],
        by simp [step, hq, Except.map], h⟩
  | empty =>
    refine Or.inr ⟨Obs.flag s.empty, s, t, rfl, ?_, h⟩
    simp [step, empty_eq_isEmpty, h]

theorem run_congr {Cont' : Type} [SeqContainer Cont' T] (ops : List (Op T))
    (s : Stack T Cont) (t : Stack T Cont') (h : s.seq = t.seq) :
    run ops s = run ops t := by
  induction ops generalizing s t with
  | nil => rfl
  | cons op ops ih =>
    rcases step_congr op s t h with ⟨f, hs, ht⟩ | ⟨o, s', t', hs, ht, hst⟩
    · simp [run, hs, ht]
    · simp [run, hs, ht, ih s' t' hst]

end Stack

/-- C5: on a freshly constructed `Stack<T, Cont>`, and on any stack whose
underlying sequence is empty, `pop()` and `top()` both fail their assertion;
on every stack whose underlying sequence is non-empty both complete; so each
of the two fails if and only if `empty()` is true. -/
theorem stack3_pop_top_fail_iff_empty {T Cont : Type} [SeqContainer Cont T]
    (s : Stack T Cont) :
    ((Stack.new : Stack T Cont).pop = .error Fault.assertion
        ∧ (Stack.new : Stack T Cont).top = .error Fault.assertion)
      ∧ (s.seq = [] → s.pop = .error Fault.assertion ∧ s.top = .error Fault.assertion)
      ∧ (s.seq ≠ [] → (∃ s', s.pop = .ok s') ∧ ∃ v, s.top = .ok v)
      ∧ ((∃ f, s.pop = .error f) ↔ s.empty = true)
      ∧ ((∃ f, s.top = .error f) ↔ s.empty = true) := by
  have hnil : s.seq = [] → s.pop = .error Fault.assertion ∧ s.top = .error Fault.assertion :=
    fun h => ⟨Stack.pop_of_seq_nil s h, Stack.top_of_seq_nil s h⟩
  have hcons : s.seq ≠ [] → (∃ s', s.pop = .ok s') ∧ ∃ v, s.top = .ok v := fun h =>
    have := Stack.pop_top_of_seq_ne_nil s h
    ⟨⟨this.1.choose, this.1.choose_spec.1⟩, ⟨this.2.choose, this.2.choose_spec.1⟩⟩
  refine ⟨⟨Stack.pop_of_seq_nil _ Stack.seq_new, Stack.top_of_seq_nil _ Stack.seq_new⟩,
    hnil, hcons, ?_, ?_⟩
  · rw [Stack.empty_eq_true_iff]
    constructor
    · rintro ⟨f, hf⟩
      by_contra hne
      obtain ⟨⟨s', hs'⟩, _⟩ := hcons hne
      rw [hs'] at hf
      cases hf
    · exact fun h => ⟨_, (hnil h).1⟩
  · rw [Stack.empty_eq_true_iff]
    constructor
    · rintro ⟨f, hf⟩
      by_contra hne
      obtain ⟨_, v, hv⟩ := hcons hne
      rw [hv] at hf
      cases hf
    · exact fun h => ⟨_, (hnil h).2⟩

end Stack3

namespace Stack3

/-- C6: `empty()` is true on a freshly constructed `Stack<T, Cont>`; it is
false after `push(v)` on any stack; `push(v)` then `pop()` on a fresh stack
completes and leaves `empty()` true; and after any program of calls that
completes from the fresh stack, with `n` pushes and `m` pops, `m ≤ n` and
`empty()` is true if and only if `n = m`. -/
theorem stack3_empty_accounting {T Cont : Type} [SeqContainer Cont T] :
    (Stack.new : Stack T Cont).empty = true
      ∧ (∀ (s : Stack T Cont) (v : T), (s.push v).empty = false)
      ∧ (∀ v : T, ∃ s' : Stack T Cont,
          ((Stack.new : Stack T Cont).push v).pop = .ok s' ∧ s'.empty = true)
      ∧ (∀ (ops : List (Op T)) (s : Stack T Cont),
          Stack.exec ops (Stack.new : Stack T Cont) = .ok s →
            pops ops ≤ pushes ops ∧ (s.empty = true ↔ pushes ops = pops ops)) := by
  refine ⟨?_, ?_, ?_, ?_⟩
  · rw [Stack.empty_eq_true_iff]
    exact Stack.seq_new
  · intro s v
    rw [Stack.empty_eq_isEmpty, Stack.seq_push]
    simp
  · intro v
    obtain ⟨s', hp, hs⟩ := Stack.pop_of_seq_snoc ((Stack.new : Stack T Cont).push v) [] v
      (by rw [Stack.seq_push, Stack.seq_new])
    exact ⟨s', hp, (Stack.empty_eq_true_iff s').mpr hs⟩
  · intro ops s h
    have hlen := Stack.exec_length ops _ s h
    rw [Stack.seq_new, List.length_nil] at hlen
    rw [Stack.empty_eq_true_iff, ← List.length_eq_zero]
    omega

/-- Witness for the accounting part of `stack3_empty_accounting`: the program
`push(1); push(2); pop(); top(); empty(); pop()` on a `Stack<int>` over the
vector model completes, has two pushes and two pops, and leaves `empty()` true. -/
theorem stack3_empty_accounting_witness :
    Stack.exec [Op.push 1, Op.push 2, Op.pop, Op.top, Op.empty, Op.pop]
        (Stack.new : Stack Int (StdVector Int)) = .ok Stack.new
      ∧ pops [Op.push (1 : Int), Op.push 2, Op.pop, Op.top, Op.empty, Op.pop]
          ≤ pushes [Op.push (1 : Int), Op.push 2, Op.pop, Op.top, Op.empty, Op.pop]
      ∧ ((Stack.new : Stack Int (StdVector Int)).empty = true
          ↔ pushes [Op.push (1 : Int), Op.push 2, Op.pop, Op.top, Op.empty, Op.pop]
            = pops [Op.push (1 : Int), Op.push 2, Op.pop, Op.top, Op.empty, Op.pop]) :=
  ⟨rfl, stack3_empty_accounting.2.2.2
    [Op.push 1, Op.push 2, Op.pop, Op.top, Op.empty, Op.pop] Stack.new rfl⟩

/-- C7: run from the freshly constructed state, the stack over the vector
model and the stack over the deque model give the same outcome for every
call of every program of `push`/`pop`/`top`/`empty` calls: they stop at the
same call with the same failure or not at all, and every `top()` and
`empty()` returns the same result in both. -/
theorem stack3_backing_independent {T : Type} (ops : List (Op T)) :
    Stack.run ops (Stack.new : Stack T (StdVector T))
      = Stack.run ops (Stack.new : Stack T (StdDeque T)) :=
  Stack.run_congr ops _ _ (by rw [Stack.seq_new, Stack.seq_new])

/-- C10: for every stack `s` and value `v`, `push(v)` completes, `top()`
right afterwards returns `v`, the underlying sequence after `push(v)` is that
of `s` with `v` added at the end, and `pop()` after `push(v)` completes and
leaves a stack whose underlying sequence is exactly that of `s`. -/
theorem stack3_push_pop_roundtrip {T Cont : Type} [SeqContainer Cont T]
    (s : Stack T Cont) (v : T) :
    Stack.step (Op.push v) s = .ok (Obs.done, s.push v)
      ∧ (s.push v).top = .ok v
      ∧ (s.push v).seq = s.seq ++ [v]
      ∧ ∃ s' : Stack T Cont, (s.push v).pop = .ok s' ∧ s'.seq = s.seq :=
  ⟨rfl, Stack.top_of_seq_snoc _ s.seq v (Stack.seq_push s v), Stack.seq_push s v,
    Stack.pop_of_seq_snoc _ s.seq v (Stack.seq_push s v)⟩

end Stack3

/-! ## `traverse` is a left fold -/

namespace FoldTraverse

theorem leftFold_none (paths : List NodeMember) : leftFold none paths = none := by
  induction paths with
  | nil => rfl
  | cons p ps ih => simpa [leftFold, link] using ih

theorem traverse_eq_leftFold (np : Option Node) (paths : List NodeMember)
    (h : ∀ k, k < paths.length → leftFold np (paths.take k) ≠ none) :
    traverse np paths = .ok (leftFold np paths) := by
  induction paths generalizing np with
  | nil => rfl
  | cons p ps ih =>
    cases np with
    | none => exact absurd rfl (h 0 (by simp))
    | some n =>
      have hrec : ∀ k, k < ps.length → leftFold (p.read n) (ps.take k) ≠ none := by
        intro k hk
        have := h (k + 1) (by simpa using hk)
        simpa [leftFold, link] using this
      have := ih (p.read n) hrec
      simpa [traverse, arrowStar, leftFold, link] using this

/-- C8: for every start pointer `np` and selectors `p1..pn` such that `np`
and every link reached before the last selector are non-null,
`traverse(np, p1, ..., pn)` returns the left fold
`((np ->* p1) ->* p2) ... ->* pn`; `traverse(np)` with no selector returns
`np`; and on the tree built in `main`, `traverse(root, left, right)` returns
the node holding the value 2. -/
theorem traverse_left_fold :
    (∀ (np : Option Node) (paths : List NodeMember),
        (∀ k, k < paths.length → leftFold np (paths.take k) ≠ none) →
          traverse np paths = .ok (leftFold np paths))
      ∧ (∀ np : Option Node, traverse np [] = .ok np)
      ∧ traverse mainRoot [left, right] = .ok (some (Node.new 2))
      ∧ (Node.new 2).value = 2 :=
  ⟨traverse_eq_leftFold, fun _ => rfl, rfl, rfl⟩

/-- Witness for the fold part of `traverse_left_fold`: on the tree of `main`
with selectors `left, right`, the start pointer and the link reached after
`left` are non-null, and the traversal returns the left fold. -/
theorem traverse_left_fold_witness :
    (leftFold mainRoot [] ≠ none ∧ leftFold mainRoot [left] ≠ none)
      ∧ traverse mainRoot [left, right] = .ok (leftFold mainRoot [left, right]) := by
  have h0 : leftFold mainRoot [] ≠ none := by simp [leftFold, mainRoot]
  have h1 : leftFold mainRoot [left] ≠ none := by
    simp [leftFold, link, mainRoot, left, NodeMember.read, Node.new, Node.setLeft, Node.left]
  refine ⟨⟨h0, h1⟩, traverse_left_fold.1 mainRoot [left, right] ?_⟩
  intro k hk
  have hk2 : k < 2 := by simpa using hk
  interval_cases k
  · exact h0
  · exact h1

end FoldTraverse

/-! ## The bounded stack against the sequential stack, within capacity -/

namespace StackNonType

namespace Stack

variable {w : Nat} {T : Type} {MaxArraySize : Nat}

theorem holds_new (buf : Fin MaxArraySize → T) :
    (new buf : Stack w T MaxArraySize).Holds [] :=
  ⟨rfl, Nat.zero_le _, fun i hi _ => absurd hi (Nat.not_lt_zero i)⟩

theorem holds_push (hC : MaxArraySize < 2 ^ w) (b : Stack w T MaxArraySize) (l : List T)
    (v : T) (h : b.Holds l) (hlt : l.length < MaxArraySize) :
    ∃ b' : Stack w T MaxArraySize, b.push v = .ok b' ∧ b'.Holds (l ++ [v]) := by
  obtain ⟨hn, _, hel⟩ := h
  have hb : b.numElems < MaxArraySize := by omega
  refine ⟨_, push_of_lt b v hb hC, ?_, ?_, ?_⟩
  · simp [hn]
  · simp only [List.length_append, List.length_singleton]; omega
  · intro i hi hiC
    simp only [List.length_append, List.length_singleton] at hi
    by_cases hil : i = l.length
    · subst hil
      have heq : (⟨l.length, hiC⟩ : Fin MaxArraySize) = ⟨b.numElems, hb⟩ := Fin.ext hn.symm
      rw [heq]
      simp only [Function.update_same, List.getElem_concat_length]
    · have hil2 : i < l.length := by omega
      have hne : (⟨i, hiC⟩ : Fin MaxArraySize) ≠ ⟨b.numElems, hb⟩ := by
        intro heq
        have := Fin.mk.inj heq
        omega
      simp only [Function.update_noteq hne, List.getElem_append_left hil2]
      exact hel i hil2 hiC

theorem holds_pop (hC : MaxArraySize < 2 ^ w) (b : Stack w T MaxArraySize) (l : List T)
    (v : T) (h : b.Holds (l ++ [v])) :
    ∃ b' : Stack w T MaxArraySize, b.pop = .ok b' ∧ b'.Holds l := by
  obtain ⟨hn, hle, hel⟩ := h
  simp only [List.length_append, List.length_singleton] at hn hle
  have hne : arrayEmpty MaxArraySize = false := by
    simp only [arrayEmpty, beq_eq_false_iff_ne]; omega
  have hidx : (b.numElems + 2 ^ w - 1) % 2 ^ w = l.length := by
    rw [hn, show l.length + 1 + 2 ^ w - 1 = l.length + 2 ^ w by omega, Nat.add_mod_right]
    exact Nat.mod_eq_of_lt (by omega)
  refine ⟨{ b with numElems := (b.numElems + 2 ^ w - 1) % 2 ^ w }, by simp [pop, hne],
    hidx, by omega, ?_⟩
  intro i hi hiC
  have := hel i (by simp only [List.length_append, List.length_singleton]; omega) hiC
  rw [List.getElem_append_left hi] at this
  exact this

theorem holds_top (hC : MaxArraySize < 2 ^ w) (b : Stack w T MaxArraySize) (l : List T)
    (v : T) (h : b.Holds (l ++ [v])) : b.top = .ok (v, b) := by
  obtain ⟨hn, hle, hel⟩ := h
  simp only [List.length_append, List.length_singleton] at hn hle
  have hne : arrayEmpty MaxArraySize = false := by
    simp only [arrayEmpty, beq_eq_false_iff_ne]; omega
  have hidx : (b.numElems + 2 ^ w - 1) % 2 ^ w = l.length := by
    rw [hn, show l.length + 1 + 2 ^ w - 1 = l.length + 2 ^ w by omega, Nat.add_mod_right]
    exact Nat.mod_eq_of_lt (by omega)
  have hlt : (b.numElems + 2 ^ w - 1) % 2 ^ w < MaxArraySize := by omega
  have hv := hel l.length (by simp) (by omega)
  simp only [List.getElem_concat_length] at hv
  simp only [top, hne, Bool.false_eq_true, if_false, hlt, dite_true]
  congr 2
  rw [← hv]
  congr 1
  exact Fin.ext hidx

theorem holds_empty (b : Stack w T MaxArraySize) (l : List T) (h : b.Holds l) :
    b.empty = l.isEmpty := by
  obtain ⟨hn, _, _⟩ := h
  cases l <;> simp [empty, hn]

end Stack

end StackNonType

namespace StackNonType

theorem Stack.simulates {w : Nat} {T Cont : Type} [SeqContainer Cont T] {C : Nat}
    (hC : C < 2 ^ w) (ops : List (Op T)) (b : Stack w T C) (s : Stack3.Stack T Cont)
    (h : b.Holds s.seq) (hv : withinCapacity C s.seq.length ops = true) :
    ∃ (b' : Stack w T C) (s' : Stack3.Stack T Cont),
      Stack.exec ops b = .ok b' ∧ Stack3.Stack.exec ops s = .ok s' ∧ b'.Holds s'.seq
        ∧ Stack.run ops b = Stack3.Stack.run ops s
        ∧ ∀ r ∈ Stack.run ops b, ∃ o, r = .ok o := by
  induction ops generalizing b s with
  | nil => exact ⟨b, s, rfl, rfl, h, rfl, by simp [Stack.run]⟩
  | cons op ops ih =>
    cases op with
    | push v =>
      simp only [withinCapacity, Bool.and_eq_true, decide_eq_true_eq] at hv
      obtain ⟨b1, hb1, hh1⟩ := Stack.holds_push hC b s.seq v h (by omega)
      rw [← Stack3.Stack.seq_push] at hh1
      obtain ⟨b', s', he, hse, hh, hr, hok⟩ := ih b1 (s.push v) hh1
        (by simpa [Stack3.Stack.seq_push] using hv.2)
      refine ⟨b', s', ?_, ?_, hh, ?_, ?_⟩
      · simp [Stack.exec, Stack.step, hb1, Except.map, he]
      · simp [Stack3.Stack.exec, Stack3.Stack.step, hse]
      · simp [Stack.run, Stack3.Stack.run, Stack.step, Stack3.Stack.step, hb1, Except.map, hr]
      · simpa [Stack.run, Stack.step, hb1, Except.map] using hok
    | pop =>
      simp only [withinCapacity, Bool.and_eq_true, decide_eq_true_eq] at hv
      have hne : s.seq ≠ [] := List.length_pos.mp hv.1
      have hsnoc : s.seq = s.seq.dropLast ++ [s.seq.getLast hne] :=
        (List.dropLast_append_getLast hne).symm
      obtain ⟨s1, hs1, hseq1⟩ := Stack3.Stack.pop_of_seq_snoc s _ _ hsnoc
      obtain ⟨b1, hb1, hh1⟩ := Stack.holds_pop hC b _ _ (hsnoc ▸ h)
      rw [← hseq1] at hh1
      obtain ⟨b', s', he, hse, hh, hr, hok⟩ := ih b1 s1 hh1
        (by rw [hseq1, List.length_dropLast]; exact hv.2)
      refine ⟨b', s', ?_, ?_, hh, ?_, ?_⟩
      · simp [Stack.exec, Stack.step, hb1, Except.map, he]
      · simp [Stack3.Stack.exec, Stack3.Stack.step, hs1, Except.map, hse]
      · simp [Stack.run, Stack3.Stack.run, Stack.step, Stack3.Stack.step, hb1, hs1,
          Except.map, hr]
      · simpa [Stack.run, Stack.step, hb1, Except.map] using hok
    | top =>
      simp only [withinCapacity, Bool.and_eq_true, decide_eq_true_eq] at hv
      have hne : s.seq ≠ [] := List.length_pos.mp hv.1
      have hsnoc : s.seq = s.seq.dropLast ++ [s.seq.getLast hne] :=
        (List.dropLast_append_getLast hne).symm
      have hs1 := Stack3.Stack.top_of_seq_snoc s _ _ hsnoc
      have hb1 := Stack.holds_top hC b _ _ (hsnoc ▸ h)
      obtain ⟨b', s', he, hse, hh, hr, hok⟩ := ih b s h hv.2
      refine ⟨b', s', ?_, ?_, hh, ?_, ?_⟩
      · simp [Stack.exec, Stack.step, hb1, Except.map, he]
      · simp [Stack3.Stack.exec, Stack3.Stack.step, hs1, Except.map, hse]
      · simp [Stack.run, Stack3.Stack.run, Stack.step, Stack3.Stack.step, hb1, hs1,
          Except.map, hr]
      · simpa [Stack.run, Stack.step, hb1, Except.map] using hok
    | empty =>
      simp only [withinCapacity] at hv
      have hemp : b.empty = s.empty := by
        rw [Stack.holds_empty b s.seq h, Stack3.Stack.empty_eq_isEmpty]
      obtain ⟨b', s', he, hse, hh, hr, hok⟩ := ih b s h hv
      refine ⟨b', s', ?_, ?_, hh, ?_, ?_⟩
      · simp [Stack.exec, Stack.step, he]
      · simp [Stack3.Stack.exec, Stack3.Stack.step, hse]
      · simp [Stack.run, Stack3.Stack.run, Stack.step, Stack3.Stack.step, hemp, hr]
      · simpa [Stack.run, Stack.step] using hok

/-- C9: for every capacity `C` (a `size_t`, so `C < 2^w`) and every program
of `push`/`pop`/`top`/`empty` calls that, started from fresh stacks, never
stores more than `C` elements and never calls `pop` or `top` with nothing
stored, the bounded stack completes every call, every call returns the same
result (in particular every `top()` and `empty()`) as on the sequential
stack, and at the end `size()` equals the length of the sequential stack's
underlying sequence. -/
theorem bounded_refines_stack3 {w : Nat} {T Cont : Type} [SeqContainer Cont T] (C : Nat)
    (hC : C < 2 ^ w) (buf : Fin C → T) (ops : List (Op T))
    (hvalid : withinCapacity C 0 ops = true) :
    ∃ (b : Stack w T C) (s : Stack3.Stack T Cont),
      Stack.exec ops (Stack.new buf) = .ok b
        ∧ Stack3.Stack.exec ops (Stack3.Stack.new : Stack3.Stack T Cont) = .ok s
        ∧ (∀ r ∈ Stack.run ops (Stack.new buf : Stack w T C), ∃ o, r = .ok o)
        ∧ Stack.run ops (Stack.new buf : Stack w T C)
            = Stack3.Stack.run ops (Stack3.Stack.new : Stack3.Stack T Cont)
        ∧ b.size = s.seq.length := by
  have h0 : (Stack.new buf : Stack w T C).Holds
      (Stack3.Stack.new : Stack3.Stack T Cont).seq := by
    rw [Stack3.Stack.seq_new]
    exact Stack.holds_new buf
  obtain ⟨b, s, he, hse, hh, hr, hok⟩ := Stack.simulates hC ops _ _ h0
    (by rw [Stack3.Stack.seq_new]; exact hvalid)
  exact ⟨b, s, he, hse, hok, hr, hh.1⟩

/-- Witness for `bounded_refines_stack3`: capacity 2, 64-bit `size_t`, the
sequential stack over the vector model, and the program
`push(1); top(); push(2); empty(); pop(); top(); pop(); empty()`. -/
theorem bounded_refines_stack3_witness :
    (2 < 2 ^ 64
      ∧ withinCapacity 2 0 [Op.push (1 : Int), Op.top, Op.push 2, Op.empty, Op.pop, Op.top,
          Op.pop, Op.empty] = true)
    ∧ ∃ (b : Stack 64 Int 2) (s : Stack3.Stack Int (StdVector Int)),
      Stack.exec [Op.push 1, Op.top, Op.push 2, Op.empty, Op.pop, Op.top, Op.pop, Op.empty]
          (Stack.new (fun _ => 0)) = .ok b
        ∧ Stack3.Stack.exec
            [Op.push 1, Op.top, Op.push 2, Op.empty, Op.pop, Op.top, Op.pop, Op.empty]
            (Stack3.Stack.new : Stack3.Stack Int (StdVector Int)) = .ok s
        ∧ (∀ r ∈ Stack.run
              [Op.push 1, Op.top, Op.push 2, Op.empty, Op.pop, Op.top, Op.pop, Op.empty]
              (Stack.new (fun _ => 0) : Stack 64 Int 2), ∃ o, r = .ok o)
        ∧ Stack.run [Op.push 1, Op.top, Op.push 2, Op.empty, Op.pop, Op.top, Op.pop, Op.empty]
            (Stack.new (fun _ => 0) : Stack 64 Int 2)
            = Stack3.Stack.run
                [Op.push 1, Op.top, Op.push 2, Op.empty, Op.pop, Op.top, Op.pop, Op.empty]
                (Stack3.Stack.new : Stack3.Stack Int (StdVector Int))
        ∧ b.size = s.seq.length :=
  ⟨⟨by norm_num, by decide⟩,
    bounded_refines_stack3 2 (by norm_num) (fun _ => 0)
      [Op.push 1, Op.top, Op.push 2, Op.empty, Op.pop, Op.top, Op.pop, Op.empty] (by decide)⟩

end StackNonType

/-! ## Read-only members -/

namespace StackNonType

namespace Stack

variable {w : Nat} {T : Type} {MaxArraySize : Nat}

theorem top_state (s s' : Stack w T MaxArraySize) (v : T) (h : s.top = .ok (v, s')) :
    s' = s := by
  unfold top at h
  split at h
  · cases h
  · split at h
    · simp only [Except.ok.injEq, Prod.mk.injEq] at h
      exact h.2.symm
    · cases h

end Stack

/-- C11: `top()` and `empty()` are read-only on both stacks.  On the bounded
stack, whenever `top()` completes the stack it leaves is the stack it was
called on (same buffer, same `numElems`), so a second `top()` returns the
same value; on the sequential stack a completed `top()` call leaves the
stack as it was and a second call returns the same value; and `empty()`
leaves either stack as it was (`empty()` and `size()` are `const` members:
they read `numElems` and return a value only). -/
theorem top_empty_read_only {w : Nat} {T Cont : Type} [SeqContainer Cont T] {C : Nat} :
    (∀ (s s' : Stack w T C) (v : T), s.top = .ok (v, s') →
        s' = s ∧ s'.elems = s.elems ∧ s'.numElems = s.numElems ∧ s'.top = .ok (v, s'))
      ∧ (∀ (s s' : Stack3.Stack T Cont) (o : Obs T),
          Stack3.Stack.step Op.top s = .ok (o, s') →
            s' = s ∧ s'.seq = s.seq ∧ Stack3.Stack.step Op.top s' = .ok (o, s'))
      ∧ (∀ s : Stack w T C, Stack.step Op.empty s = .ok (Obs.flag s.empty, s))
      ∧ (∀ s : Stack3.Stack T Cont,
          Stack3.Stack.step Op.empty s = .ok (Obs.flag s.empty, s))
      ∧ (∀ (s s' : Stack w T C) (o : Obs T),
          Stack.step Op.empty s = .ok (o, s') → s'.size = s.size ∧ s'.elems = s.elems) := by
  refine ⟨?_, ?_, fun _ => rfl, fun _ => rfl, ?_⟩
  · intro s s' v h
    have hs := Stack.top_state s s' v h
    subst hs
    exact ⟨rfl, rfl, rfl, h⟩
  · intro s s' o h
    cases ht : s.top with
    | error f => simp [Stack3.Stack.step, ht, Except.map] at h
    | ok v =>
      simp only [Stack3.Stack.step, ht, Except.map, Except.ok.injEq, Prod.mk.injEq] at h
      obtain ⟨ho, hs⟩ := h
      subst hs
      subst ho
      exact ⟨rfl, rfl, by simp [Stack3.Stack.step, ht, Except.map]⟩
  · intro s s' o h
    simp only [Stack.step, Except.ok.injEq, Prod.mk.injEq] at h
    obtain ⟨_, hs⟩ := h
    subst hs
    exact ⟨rfl, rfl⟩

/-- Witness for `top_empty_read_only`: on a `Stack<int, 2>` (64-bit `size_t`)
holding one element 7, `top()` completes with 7 and leaves the stack as it
was, and a second `top()` returns 7 again. -/
theorem top_empty_read_only_witness :
    (({ elems := fun _ => 7, numElems := 1 } : Stack 64 Int 2).top
        = .ok (7, { elems := fun _ => 7, numElems := 1 }))
      ∧ ({ elems := fun _ => 7, numElems := 1 } : Stack 64 Int 2)
          = { elems := fun _ => 7, numElems := 1 }
      ∧ ({ elems := fun _ => 7, numElems := 1 } : Stack 64 Int 2).top
          = .ok (7, { elems := fun _ => 7, numElems := 1 }) := by
  have h : ({ elems := fun _ => 7, numElems := 1 } : Stack 64 Int 2).top
      = .ok (7, { elems := fun _ => 7, numElems := 1 }) := by
    simp [Stack.top, arrayEmpty]
  have := (@top_empty_read_only 64 Int (StdVector Int) inferInstance 2).1 _ _ _ h
  exact ⟨h, this.1, this.2.2.2⟩

end StackNonType

/-! ## When `traverse` dereferences a null link -/

namespace FoldTraverse

theorem traverse_none_cons (path : NodeMember) (paths : List NodeMember) :
    traverse none (path :: paths) = .error Fault.undefined := rfl

theorem traverse_error_of_null (np : Option Node) (paths : List NodeMember) (k : Nat)
    (hk : k < paths.length) (hnull : leftFold np (paths.take k) = none) :
    traverse np paths = .error Fault.undefined := by
  induction paths generalizing np k with
  | nil => simp at hk
  | cons p ps ih =>
    cases np with
    | none => rfl
    | some n =>
      cases k with
      | zero => simp [leftFold] at hnull
      | succ k =>
        have hk1 : k < ps.length := by simpa using hk
        have hn : leftFold (p.read n) (ps.take k) = none := by
          simpa [leftFold, link] using hnull
        have := ih (p.read n) k hk1 hn
        simpa [traverse, arrowStar] using this

/-- C12: with links modelled as optional, for every start pointer `np` and
non-empty selector list `p1..pn`, `traverse(np, p1, ..., pn)` dereferences a
null link (undefined behaviour) if and only if `np` is null or the link
reached after some selector `pi` with `1 ≤ i < n` is null; when `np` and all
links before the last are present the call is defined and returns the link
reached last, null included. -/
theorem traverse_null_deref (np : Option Node) (paths : List NodeMember)
    (hne : paths ≠ []) :
    (traverse np paths = .error Fault.undefined ↔
        (np = none ∨ ∃ i, 1 ≤ i ∧ i < paths.length ∧ leftFold np (paths.take i) = none))
      ∧ ((∃ f, traverse np paths = .error f) ↔ traverse np paths = .error Fault.undefined)
      ∧ ((np ≠ none ∧ ∀ i, 1 ≤ i → i < paths.length → leftFold np (paths.take i) ≠ none) →
          traverse np paths = .ok (leftFold np paths)
            ∧ (leftFold np paths = none → traverse np paths = .ok none)) := by
  have hlen : 0 < paths.length := List.length_pos.mpr hne
  have hdef : (np ≠ none ∧ ∀ i, 1 ≤ i → i < paths.length →
      leftFold np (paths.take i) ≠ none) → traverse np paths = .ok (leftFold np paths) := by
    rintro ⟨hnp, hlinks⟩
    apply traverse_eq_leftFold
    intro k hk
    cases k with
    | zero => simpa [leftFold] using hnp
    | succ k => exact hlinks (k + 1) (by omega) hk
  have hiff : traverse np paths = .error Fault.undefined ↔
      (np = none ∨ ∃ i, 1 ≤ i ∧ i < paths.length ∧ leftFold np (paths.take i) = none) := by
    constructor
    · intro herr
      by_contra hcon
      push_neg at hcon
      rw [hdef ⟨hcon.1, hcon.2⟩] at herr
      cases herr
    · rintro (hnp | ⟨i, _, hi, hnull⟩)
      · exact traverse_error_of_null np paths 0 hlen (by simpa [leftFold] using hnp)
      · exact traverse_error_of_null np paths i hi hnull
  refine ⟨hiff, ?_, fun h => ⟨hdef h, fun hnull => by rw [hdef h, hnull]⟩⟩
  constructor
  · rintro ⟨f, hf⟩
    cases f with
    | undefined => exact hf
    | assertion =>
      exfalso
      by_cases hcon : np = none ∨
          ∃ i, 1 ≤ i ∧ i < paths.length ∧ leftFold np (paths.take i) = none
      · rw [hiff.mpr hcon] at hf
        cases hf
      · push_neg at hcon
        rw [hdef ⟨hcon.1, hcon.2⟩] at hf
        cases hf
  · exact fun h => ⟨_, h⟩

/-- Witness for `traverse_null_deref`: on the tree of `main`, the selectors
`left, left, left` reach a null link after the second selector (the node
holding 1 has no left child), so the traversal dereferences a null link. -/
theorem traverse_null_deref_witness :
    [left, left, left] ≠ []
      ∧ leftFold mainRoot ([left, left, left].take 2) = none
      ∧ traverse mainRoot [left, left, left] = .error Fault.undefined :=
  ⟨by simp, rfl,
    (traverse_null_deref mainRoot [left, left, left] (by simp)).1.mpr
      (Or.inr ⟨2, by decide, by decide, rfl⟩)⟩

end FoldTraverse

/-! ## Runs of the bounded stack that respect the documented preconditions -/

namespace StackNonType

namespace Stack

variable {w : Nat} {T : Type} {MaxArraySize : Nat}

theorem pred_index (hC : MaxArraySize < 2 ^ w) (s : Stack w T MaxArraySize)
    (h0 : 0 < s.numElems) (hle : s.numElems ≤ MaxArraySize) :
    (s.numElems + 2 ^ w - 1) % 2 ^ w = s.numElems - 1 := by
  rw [show s.numElems + 2 ^ w - 1 = (s.numElems - 1) + 2 ^ w by omega, Nat.add_mod_right]
  exact Nat.mod_eq_of_lt (by omega)

theorem pop_of_pos (hC : MaxArraySize < 2 ^ w) (s : Stack w T MaxArraySize)
    (h0 : 0 < s.numElems) (hle : s.numElems ≤ MaxArraySize) :
    s.pop = .ok { s with numElems := s.numElems - 1 } := by
  have hne : arrayEmpty MaxArraySize = false := by
    simp only [arrayEmpty, beq_eq_false_iff_ne]; omega
  simp [pop, hne, pred_index hC s h0 hle]

theorem top_of_pos (hC : MaxArraySize < 2 ^ w) (s : Stack w T MaxArraySize)
    (h0 : 0 < s.numElems) (hle : s.numElems ≤ MaxArraySize) :
    ∃ v : T, s.top = .ok (v, s) := by
  have hne : arrayEmpty MaxArraySize = false := by
    simp only [arrayEmpty, beq_eq_false_iff_ne]; omega
  have hlt : (s.numElems + 2 ^ w - 1) % 2 ^ w < MaxArraySize := by
    rw [pred_index hC s h0 hle]; omega
  exact ⟨s.elems ⟨_, hlt⟩, by simp [top, hne, hlt]⟩

theorem respects_exec (hC : MaxArraySize < 2 ^ w) (ops : List (Op T))
    (s : Stack w T MaxArraySize) (hinv : s.numElems ≤ MaxArraySize)
    (hr : respects precond ops s = true) :
    ∃ s' : Stack w T MaxArraySize, exec ops s = .ok s'
      ∧ (∀ r ∈ run ops s, ∃ o, r = .ok o)
      ∧ s'.numElems ≤ MaxArraySize
      ∧ s'.numElems + pops ops = s.numElems + pushes ops := by
  induction ops generalizing s with
  | nil => exact ⟨s, rfl, by simp [run], hinv, rfl⟩
  | cons op ops ih =>
    cases op with
    | push v =>
      simp only [respects, precond, size, Bool.and_eq_true, decide_eq_true_eq] at hr
      have hp := push_of_lt s v hr.1 hC
      have hr2 := hr.2
      simp only [step, hp, Except.map] at hr2
      obtain ⟨s', he, hok, hle, hcnt⟩ := ih _ (by simp only; omega) hr2
      refine ⟨s', by simp [exec, step, hp, Except.map, he], ?_, hle, ?_⟩
      · simpa [run, step, hp, Except.map] using hok
      · simp only [pops, pushes] at hcnt ⊢
        omega
    | pop =>
      simp only [respects, precond, size, Bool.and_eq_true, decide_eq_true_eq] at hr
      have hp := pop_of_pos hC s hr.1 hinv
      have hr2 := hr.2
      simp only [step, hp, Except.map] at hr2
      obtain ⟨s', he, hok, hle, hcnt⟩ := ih _ (by simp only; omega) hr2
      refine ⟨s', by simp [exec, step, hp, Except.map, he], ?_, hle, ?_⟩
      · simpa [run, step, hp, Except.map] using hok
      · simp only [pops, pushes] at hcnt ⊢
        omega
    | top =>
      simp only [respects, precond, size, Bool.and_eq_true, decide_eq_true_eq] at hr
      obtain ⟨v, hp⟩ := top_of_pos hC s hr.1 hinv
      have hr2 := hr.2
      simp only [step, hp, Except.map] at hr2
      obtain ⟨s', he, hok, hle, hcnt⟩ := ih s hinv hr2
      refine ⟨s', by simp [exec, step, hp, Except.map, he], ?_, hle, ?_⟩
      · simpa [run, step, hp, Except.map] using hok
      · simpa [pops, pushes] using hcnt
    | empty =>
      simp only [respects, precond, step, Bool.true_and] at hr
      obtain ⟨s', he, hok, hle, hcnt⟩ := ih s hinv hr
      refine ⟨s', by simp [exec, step, he], ?_, hle, ?_⟩
      · simpa [run, step] using hok
      · simpa [pops, pushes] using hcnt

theorem exec_count (hC : MaxArraySize < 2 ^ w) (ops : List (Op T))
    (s s' : Stack w T MaxArraySize) (hinv : s.numElems ≤ MaxArraySize)
    (hr : respects sizePrecond ops s = true) (he : exec ops s = .ok s') :
    s'.numElems ≤ MaxArraySize ∧ s'.numElems + pops ops = s.numElems + pushes ops := by
  induction ops generalizing s with
  | nil =>
    simp only [exec, Except.ok.injEq] at he
    subst he
    exact ⟨hinv, rfl⟩
  | cons op ops ih =>
    cases op with
    | push v =>
      simp only [respects, sizePrecond, size, Bool.and_eq_true, decide_eq_true_eq] at hr
      have hp := push_of_lt s v hr.1 hC
      have hr2 := hr.2
      simp only [step, hp, Except.map] at hr2
      simp only [exec, step, hp, Except.map] at he
      obtain ⟨hle, hcnt⟩ := ih _ (by simp only; omega) hr2 he
      refine ⟨hle, ?_⟩
      simp only [pops, pushes] at hcnt ⊢
      omega
    | pop =>
      simp only [respects, sizePrecond, size, Bool.and_eq_true, decide_eq_true_eq] at hr
      have hp := pop_of_pos hC s hr.1 hinv
      have hr2 := hr.2
      simp only [step, hp, Except.map] at hr2
      simp only [exec, step, hp, Except.map] at he
      obtain ⟨hle, hcnt⟩ := ih _ (by simp only; omega) hr2 he
      refine ⟨hle, ?_⟩
      simp only [pops, pushes] at hcnt ⊢
      omega
    | top =>
      cases ht : s.top with
      | error f => simp [exec, step, ht, Except.map] at he
      | ok r =>
        obtain ⟨v, s1⟩ := r
        have hs1 := top_state s s1 v ht
        subst hs1
        simp only [respects, sizePrecond, step, ht, Except.map, Bool.true_and] at hr
        simp only [exec, step, ht, Except.map] at he
        obtain ⟨hle, hcnt⟩ := ih s1 hinv hr he
        exact ⟨hle, by simpa [pops, pushes] using hcnt⟩
    | empty =>
      simp only [respects, sizePrecond, step, Bool.true_and] at hr
      simp only [exec, step] at he
      obtain ⟨hle, hcnt⟩ := ih s hinv hr he
      exact ⟨hle, by simpa [pops, pushes] using hcnt⟩

end Stack

end StackNonType

namespace StackNonType

/-- C13: for every capacity `C` (a `size_t`, so `C < 2^w`) and every client
program run from construction whose calls all respect the documented
preconditions (`push` only when `size() < C`, `pop`/`top` only when
`size() > 0`), every call completes (none is undefined), and in the state
reached `numElems ≤ C`, the index `numElems` written by a permitted `push` is
below `C`, and the index `numElems - 1` read by a permitted `top`, computed
modulo `2^w`, is below `C` and is `numElems - 1` without wrap-around. -/
theorem bounded_index_safety {w : Nat} {T : Type} (C : Nat) (hC : C < 2 ^ w)
    (buf : Fin C → T) (ops : List (Op T))
    (hr : Stack.respects Stack.precond ops (Stack.new buf : Stack w T C) = true) :
    ∃ s : Stack w T C,
      Stack.exec ops (Stack.new buf) = .ok s
        ∧ (∀ r ∈ Stack.run ops (Stack.new buf : Stack w T C), ∃ o, r = .ok o)
        ∧ s.numElems ≤ C
        ∧ (∀ v : T, Stack.precond (Op.push v) s = true → s.numElems < C)
        ∧ (Stack.precond Op.top s = true →
            (s.numElems + 2 ^ w - 1) % 2 ^ w < C
              ∧ (s.numElems + 2 ^ w - 1) % 2 ^ w + 1 = s.numElems) := by
  obtain ⟨s, he, hok, hle, _⟩ := Stack.respects_exec hC ops (Stack.new buf : Stack w T C)
    (Nat.zero_le _) hr
  refine ⟨s, he, hok, hle, ?_, ?_⟩
  · intro v hv
    simpa [Stack.precond, Stack.size] using hv
  · intro hv
    have h0 : 0 < s.numElems := by simpa [Stack.precond, Stack.size] using hv
    rw [Stack.pred_index hC s h0 hle]
    omega

/-- Witness for `bounded_index_safety`: capacity 2, 64-bit `size_t`, and the
program `push(1); top(); push(2); pop(); empty(); top()`. -/
theorem bounded_index_safety_witness :
    (2 < 2 ^ 64
      ∧ Stack.respects Stack.precond
          [Op.push 1, Op.top, Op.push 2, Op.pop, Op.empty, Op.top]
          (Stack.new (fun _ => 0) : Stack 64 Int 2) = true)
    ∧ ∃ s : Stack 64 Int 2,
      Stack.exec [Op.push 1, Op.top, Op.push 2, Op.pop, Op.empty, Op.top]
          (Stack.new (fun _ => 0)) = .ok s
        ∧ (∀ r ∈ Stack.run [Op.push 1, Op.top, Op.push 2, Op.pop, Op.empty, Op.top]
              (Stack.new (fun _ => 0) : Stack 64 Int 2), ∃ o, r = .ok o)
        ∧ s.numElems ≤ 2
        ∧ (∀ v : Int, Stack.precond (Op.push v) s = true → s.numElems < 2)
        ∧ (Stack.precond Op.top s = true →
            (s.numElems + 2 ^ 64 - 1) % 2 ^ 64 < 2
              ∧ (s.numElems + 2 ^ 64 - 1) % 2 ^ 64 + 1 = s.numElems) := by
  have hr : Stack.respects Stack.precond
      [Op.push 1, Op.top, Op.push 2, Op.pop, Op.empty, Op.top]
      (Stack.new (fun _ => 0) : Stack 64 Int 2) = true := by
    simp [Stack.respects, Stack.precond, Stack.step, Stack.push, Stack.pop, Stack.top,
      Stack.new, Stack.size, arrayEmpty, Except.map]
  exact ⟨⟨by norm_num, hr⟩, bounded_index_safety 2 (by norm_num) (fun _ => 0) _ hr⟩

/-- C14: the assertion of `pop()` and of `top()` tests the emptiness of the
fixed-size array, so in every state it fails if and only if
`MaxArraySize == 0`, whatever `numElems` is; hence for every capacity
`C ≥ 1` (a `size_t`, so `C < 2^w`), `pop()` on a stack with `numElems == 0`
passes the assertion, completes, and leaves `numElems = 2^w - 1` with the
buffer untouched, after which `empty()` is false. -/
theorem bounded_guard_capacity_only {w : Nat} {T : Type} {C : Nat} (s : Stack w T C) :
    (s.pop = .error Fault.assertion ↔ C = 0)
      ∧ (s.top = .error Fault.assertion ↔ C = 0)
      ∧ (1 ≤ C → C < 2 ^ w → s.numElems = 0 →
          ∃ s' : Stack w T C, s.pop = .ok s' ∧ s'.numElems = 2 ^ w - 1
            ∧ s'.elems = s.elems ∧ s'.empty = false) := by
  refine ⟨?_, ?_, ?_⟩
  · by_cases hc : C = 0
    · simp [Stack.pop, arrayEmpty, hc]
    · simp [Stack.pop, arrayEmpty, hc]
  · by_cases hc : C = 0
    · simp [Stack.top, arrayEmpty, hc]
    · simp only [Stack.top, arrayEmpty, hc, beq_iff_eq, if_false, iff_false]
      split <;> simp
  · intro h1 hC h0
    have hc : C ≠ 0 := by omega
    have hmod : (s.numElems + 2 ^ w - 1) % 2 ^ w = 2 ^ w - 1 := by
      rw [h0, Nat.zero_add]
      exact Nat.mod_eq_of_lt (by omega)
    refine ⟨{ s with numElems := (s.numElems + 2 ^ w - 1) % 2 ^ w }, ?_, hmod, rfl, ?_⟩
    · simp [Stack.pop, arrayEmpty, hc]
    · simp only [Stack.empty, hmod, beq_eq_false_iff_ne]
      omega

/-- Witness for `bounded_guard_capacity_only`: on the freshly constructed
`Stack<int, 1>` with a 64-bit `size_t`, `pop()` completes and leaves
`numElems = 2^64 - 1`, and `empty()` is then false. -/
theorem bounded_guard_capacity_only_witness :
    (1 ≤ 1 ∧ 1 < 2 ^ 64 ∧ (Stack.new (fun _ => 0) : Stack 64 Int 1).numElems = 0)
      ∧ ∃ s' : Stack 64 Int 1, (Stack.new (fun _ => 0) : Stack 64 Int 1).pop = .ok s'
          ∧ s'.numElems = 2 ^ 64 - 1
          ∧ s'.elems = (Stack.new (fun _ => 0) : Stack 64 Int 1).elems ∧ s'.empty = false :=
  ⟨⟨le_refl 1, by norm_num, rfl⟩,
    (bounded_guard_capacity_only (Stack.new (fun _ => 0) : Stack 64 Int 1)).2.2
      (le_refl 1) (by norm_num) rfl⟩

end StackNonType

namespace StackNonType

/-- C15: for every capacity `C` (a `size_t`, so `C < 2^w`): `empty()` is true
right after construction; in every state `empty()` is true if and only if
`size() == 0`; `empty()` is false right after every push that completes;
every client program run from construction whose calls all respect the
documented preconditions completes and leaves `size()` equal to the number of
pushes minus the number of pops; and the same count holds for every program
that completes when only `push` (`size() < C`) and `pop` (`size() > 0`) are
required to respect their precondition. -/
theorem bounded_size_accounting {w : Nat} {T : Type} (C : Nat) (hC : C < 2 ^ w)
    (buf : Fin C → T) :
    (Stack.new buf : Stack w T C).empty = true
      ∧ (∀ s : Stack w T C, s.empty = true ↔ s.size = 0)
      ∧ (∀ (s s' : Stack w T C) (v : T), s.push v = .ok s' → s'.empty = false)
      ∧ (∀ ops : List (Op T),
          Stack.respects Stack.precond ops (Stack.new buf : Stack w T C) = true →
            ∃ s : Stack w T C, Stack.exec ops (Stack.new buf) = .ok s
              ∧ pops ops ≤ pushes ops ∧ s.size = pushes ops - pops ops)
      ∧ (∀ (ops : List (Op T)) (s : Stack w T C),
          Stack.respects Stack.sizePrecond ops (Stack.new buf : Stack w T C) = true →
            Stack.exec ops (Stack.new buf) = .ok s →
              pops ops ≤ pushes ops ∧ s.size = pushes ops - pops ops) := by
  refine ⟨rfl, ?_, ?_, ?_, ?_⟩
  · intro s
    simp [Stack.empty, Stack.size]
  · intro s s' v h
    by_cases hlt : s.numElems < C
    · rw [Stack.push_of_lt s v hlt hC] at h
      simp only [Except.ok.injEq] at h
      subst h
      simp [Stack.empty]
    · rw [Stack.push_of_not_lt s v hlt] at h
      cases h
  · intro ops hr
    obtain ⟨s, he, _, _, hcnt⟩ := Stack.respects_exec hC ops (Stack.new buf : Stack w T C)
      (Nat.zero_le _) hr
    have h0 : (Stack.new buf : Stack w T C).numElems = 0 := rfl
    refine ⟨s, he, ?_, ?_⟩
    · omega
    · simp only [Stack.size]; omega
  · intro ops s hr he
    obtain ⟨_, hcnt⟩ := Stack.exec_count hC ops (Stack.new buf : Stack w T C) s
      (Nat.zero_le _) hr he
    have h0 : (Stack.new buf : Stack w T C).numElems = 0 := rfl
    refine ⟨?_, ?_⟩
    · omega
    · simp only [Stack.size]; omega

/-- Witness for `bounded_size_accounting`: capacity 2, 64-bit `size_t`; the
program `push(1); push(2); top(); pop(); empty()` respects the documented
preconditions, completes, and leaves `size() = 2 - 1`. -/
theorem bounded_size_accounting_witness :
    (2 < 2 ^ 64
      ∧ Stack.respects Stack.precond [Op.push 1, Op.push 2, Op.top, Op.pop, Op.empty]
          (Stack.new (fun _ => 0) : Stack 64 Int 2) = true)
    ∧ ∃ s : Stack 64 Int 2,
      Stack.exec [Op.push 1, Op.push 2, Op.top, Op.pop, Op.empty]
          (Stack.new (fun _ => 0)) = .ok s
        ∧ pops [Op.push (1 : Int), Op.push 2, Op.top, Op.pop, Op.empty]
            ≤ pushes [Op.push (1 : Int), Op.push 2, Op.top, Op.pop, Op.empty]
        ∧ s.size = pushes [Op.push (1 : Int), Op.push 2, Op.top, Op.pop, Op.empty]
            - pops [Op.push (1 : Int), Op.push 2, Op.top, Op.pop, Op.empty] := by
  have hr : Stack.respects Stack.precond [Op.push 1, Op.push 2, Op.top, Op.pop, Op.empty]
      (Stack.new (fun _ => 0) : Stack 64 Int 2) = true := by
    simp [Stack.respects, Stack.precond, Stack.step, Stack.push, Stack.pop, Stack.top,
      Stack.new, Stack.size, arrayEmpty, Except.map]
  exact ⟨⟨by norm_num, hr⟩,
    (bounded_size_accounting 2 (by norm_num) (fun _ => 0)).2.2.2.1 _ hr⟩

end StackNonType
